import Mathlib

/-!
Shallow embedding of the core of `cf-categorizer-ca-powersearch`:
the resilient classification client (`src/api/client.py`), the rate
limiter, the checkpoint store and standardizer
(`src/processing/categorizer.py`) and the canonical taxonomy
(`src/config/settings.py`).  Strings are modelled over ASCII; machine
reals (time stamps, delays, jitter) are modelled as rationals.
-/

namespace CFCat

/-! ## Python string primitives

`str.strip()` removes leading/trailing whitespace; `str.lower()` lowers
case; `x in s` is substring containment; `s.split(sep)[-1]` is the
suffix after the last occurrence of `sep`.  We model them on `List Char`
and wrap to `String`. -/

/-- Whitespace characters recognised by Python `str.strip()` (ASCII range). -/
def isPyWS (c : Char) : Bool :=
  c = ' ' || c = '\t' || c = '\n' || c = '\r' || c = '\x0b' || c = '\x0c'

/-- Drop trailing characters satisfying `p`. -/
def dropTrail (p : Char → Bool) (l : List Char) : List Char :=
  (l.reverse.dropWhile p).reverse

/-- Python `str.strip()` on a character list. -/
def stripL (l : List Char) : List Char :=
  dropTrail isPyWS (l.dropWhile isPyWS)

/-- Python `str.strip()`. -/
def stripS (s : String) : String := ⟨stripL s.data⟩

/-- Python `str.lower()` (ASCII). -/
def lowerS (s : String) : String := ⟨s.data.map Char.toLower⟩

/-- Suffix after the first occurrence of `sep`, or `none` if `sep` does not
occur (`sep` is the non-empty literal in every use below). -/
def dropThroughFirst (sep : List Char) : List Char → Option (List Char)
  | [] => if sep = [] then some [] else none
  | c :: rest =>
    if sep.isPrefixOf (c :: rest) then some ((c :: rest).drop sep.length)
    else dropThroughFirst sep rest

/-- Python `sep in s` (substring containment). -/
def containsSub (sep l : List Char) : Bool :=
  (dropThroughFirst sep l).isSome

/-- Fuel-indexed helper for `afterLast`; fuel `l.length` is always enough
for a non-empty separator. -/
def afterLastAux (sep : List Char) : Nat → List Char → List Char
  | 0, l => l
  | fuel + 1, l =>
    match dropThroughFirst sep l with
    | none => l
    | some s => afterLastAux sep fuel s

/-- Python `s.split(sep)[-1]`: the suffix after the last occurrence of
`sep` (the whole string when `sep` does not occur). -/
def afterLast (sep l : List Char) : List Char :=
  afterLastAux sep l.length l

/-! ## Classification client (`src/api/client.py`) -/

/-- Outcome of one invocation of the external service
(`self.client.messages.create`): either the first content element's text,
or the message of the raised exception. -/
inductive CallResult where
  | success (text : String)
  | failure (message : String)
deriving DecidableEq

/-- `"529" in error_str or "rate" in error_str.lower() or "limit" in
error_str.lower()` — the throttling test of `categorize_contributor`. -/
def isThrottling (msg : String) : Bool :=
  containsSub "529".data msg.data
    || containsSub "rate".data (lowerS msg).data
    || containsSub "limit".data (lowerS msg).data

/-- Label extraction from a successful response:
`category = response.content[0].text.strip()`, then if `"Category:" in
category`, `category = category.split("Category:")[-1].strip()`. -/
def extractCategory (text : String) : String :=
  let category := stripS text
  if containsSub "Category:".data category.data then
    stripS ⟨afterLast "Category:".data category.data⟩
  else category

/-- The retry loop of `categorize_contributor`, lines 52–90 of
`src/api/client.py`.  `call attempt` is the external service's behaviour
on that attempt; the result pairs the returned label with the number of
attempts (external invocations) made from this point on.  `fuel` counts
the remaining loop iterations (`maxRetries + 1 - attempt`). -/
def categorizeAux (call : Nat → CallResult) (maxRetries : Nat) :
    Nat → Nat → String × Nat
  | _, 0 => ("Other", 0)
  | attempt, fuel + 1 =>
    match call attempt with
    | .success text => (extractCategory text, 1)
    | .failure msg =>
      if isThrottling msg then
        if attempt < maxRetries then
          let r := categorizeAux call maxRetries (attempt + 1) fuel
          (r.1, r.2 + 1)
        else ("Other", 1)
      else ("Other", 1)

/-- `APIClient.categorize_contributor`: run the loop
`for attempt in range(max_retries + 1)` from attempt 0. -/
def categorizeContributor (call : Nat → CallResult) (maxRetries : Nat) :
    String × Nat :=
  categorizeAux call maxRetries 0 (maxRetries + 1)

/-! ## Field cleaning and prompt fields

`ContributorCategorizer._clean_string` (categorizer.py 204–208) and the
prompt construction of `categorize_contributor` (client.py 45–50).
`Option String` models a pandas cell: `none` is `NaN` / Python `None`. -/

/-- `_clean_string`: `None` for NaN or the empty string, otherwise the
trimmed string (which may itself be empty, for all-whitespace input). -/
def cleanString : Option String → Option String
  | none => none
  | some s => if s = "" then none else some (stripS s)

/-- `employer if employer else 'Not provided'` — Python falsiness:
`None` and `""` both become the sentinel. -/
def sentinelIfBlank : Option String → String
  | none => "Not provided"
  | some s => if s = "" then "Not provided" else s

/-- The `name` field is interpolated directly (`name=name`): no sentinel;
Python renders `None` as the string `"None"` in `str.format`. -/
def nameField : Option String → String
  | none => "None"
  | some s => s

/-! ## Rate limiter (`RateLimiter.wait_if_needed`, client.py 101–119)

Machine time and delays are modelled as rationals.  `jitterRetry` models
`random.uniform(0, 1)`, `jitterNormal` models `random.uniform(0, 0.2)`;
both are passed in as parameters of the draw.  The function returns the
duration passed to `time.sleep` (0 when no sleep happens). -/

/-- Sleep duration computed by `wait_if_needed`. -/
def waitDuration (baseDelay : ℚ) (attempt : Nat) (jitterRetry jitterNormal : ℚ)
    (currentTime lastRequestTime : ℚ) : ℚ :=
  if 0 < attempt then
    baseDelay * 2 ^ attempt + jitterRetry
  else
    let timeSinceLast := currentTime - lastRequestTime
    let minDelay := baseDelay + jitterNormal
    if timeSinceLast < minDelay then minDelay - timeSinceLast else 0

/-! ## Checkpoint store (categorizer.py 231–294)

The pickle file's contents are either absent (`Option.none`), a legacy
bare mapping, or the envelope `{'categories', 'dataset_size',
'created_at'}` written by `_save_progress`.  Association lists model
Python dicts (keys distinct); timestamps are opaque naturals. -/

/-- Shape of the persisted pickle data. -/
inductive Stored where
  | legacy (categories : List (Nat × String))
  | envelope (categories : List (Nat × String)) (datasetSize : Nat)
      (createdAt : Option Nat)
deriving DecidableEq

/-- Result of `_load_progress_raw` when the file exists: an
envelope-shaped dict (`created_at` may be absent for wrapped legacy data). -/
structure RawProgress where
  categories : List (Nat × String)
  datasetSize : Nat
  createdAt : Option Nat
deriving DecidableEq

/-- Python dict assignment `d[k] = v`: update in place if present, else
append (insertion order preserved). -/
def dictInsert (m : List (Nat × String)) (k : Nat) (v : String) :
    List (Nat × String) :=
  if (m.lookup k).isSome then
    m.map (fun p => if p.1 = k then (k, v) else p)
  else m ++ [(k, v)]

/-- `_load_progress_raw`: `none` models both a missing file and a load
error (the code returns `{}` there); a legacy dict is wrapped as
`{'categories': data, 'dataset_size': len(data)}` with no `created_at`. -/
def loadProgressRaw : Option Stored → Option RawProgress
  | none => none
  | some (.legacy m) => some ⟨m, m.length, none⟩
  | some (.envelope m sz t) => some ⟨m, sz, t⟩

/-- `_save_progress now store index category datasetSize`: load raw; if the
result has no `'categories'` key (i.e. was the empty dict), reinitialize the
envelope with empty entries, the supplied size and `created_at = now`;
then set `entries[index] = category` and write back.  (`dataset_size or 0`
is the identity on `Nat`.) -/
def saveProgress (now : Nat) (store : Option Stored) (index : Nat)
    (category : String) (datasetSize : Nat) : Option Stored :=
  match loadProgressRaw store with
  | none =>
    some (.envelope (dictInsert [] index category) datasetSize (some now))
  | some r =>
    some (.envelope (dictInsert r.categories index category) r.datasetSize
      r.createdAt)

/-- `_load_progress expected`: empty when the file is absent or the stored
`dataset_size` differs from `expected`; otherwise the stored entries. -/
def loadProgress (store : Option Stored) (expected : Nat) :
    List (Nat × String) :=
  match loadProgressRaw store with
  | none => []
  | some r => if r.datasetSize ≠ expected then [] else r.categories

/-! ## Canonical taxonomy (`Categories.canonical_categories`, settings.py 40–56) -/

/-- The fixed taxonomy, in source order. -/
def canonicalCategories : List String :=
  ["Democratic Party Committees",
   "Other political action committees",
   "State Legislative Candidates/Officeholders",
   "Local Government Candidates/Officeholders",
   "Labor Unions",
   "Environmental Groups",
   "Oil Industry",
   "Pharmaceutical Industry",
   "Real Estate Industry",
   "Indian Tribes",
   "Lobbyists and Political Consultants",
   "Lawyers",
   "Individual contributor (with no other information)",
   "Business contributor (with no other information)",
   "Other"]

/-- `ProcessingConfig.fuzzy_match_threshold` default. -/
def fuzzyMatchThreshold : Nat := 80

/-! ## fuzzywuzzy similarity (`fuzz.ratio` with the Levenshtein backend)

`fuzz.ratio(s1, s2) = int(round(100 * (lensum - ldist) / lensum))` where
`ldist` is the edit distance with substitution weight 2; that distance
equals `lensum - 2 * LCS(s1, s2)`, so the score is
`round(200 * LCS / lensum)` (Python 3 `round` is half-to-even).
`process.extractOne(query, choices, scorer=fuzz.ratio)` applies the
default processor `utils.full_process` (keep word characters, lower,
strip) to the query and to every choice, scores each choice in order and
returns the first choice attaining the maximal score (Python `max` keeps
the first maximum). -/

/-- A word character for `full_process` (regex `\w`, ASCII range). -/
def isWordChar (c : Char) : Bool := c.isAlphanum || c = '_'

/-- `utils.full_process`: replace non-word characters by spaces, lower
case, strip. -/
def fullProcess (l : List Char) : List Char :=
  stripL ((l.map (fun c => if isWordChar c then c else ' ')).map Char.toLower)

/-- Textbook recursion for the length of the longest common subsequence,
made structural (hence kernel-computable) by a fuel argument; fuel
`a.length + b.length` is always sufficient. -/
def lcsFuel : Nat → List Char → List Char → Nat
  | 0, _, _ => 0
  | _ + 1, [], _ => 0
  | _ + 1, _ :: _, [] => 0
  | fuel + 1, a :: as, b :: bs =>
    if a = b then lcsFuel fuel as bs + 1
    else max (lcsFuel fuel as (b :: bs)) (lcsFuel fuel (a :: as) bs)

/-- Length of the longest common subsequence. -/
def lcsL (a b : List Char) : Nat :=
  lcsFuel (a.length + b.length) a b

/-- Round `num / den` to the nearest integer, halves to even (Python 3
`round`); `den` is positive at every use. -/
def bankersRound (num den : Nat) : Nat :=
  let q := num / den
  let r := num % den
  if 2 * r < den then q
  else if den < 2 * r then q + 1
  else if q % 2 = 0 then q else q + 1

/-- `fuzz.ratio` on already-processed character lists (100 when both are
empty, as in the backend). -/
def fuzzScoreL (a b : List Char) : Nat :=
  if a.length + b.length = 0 then 100
  else bankersRound (200 * lcsL a b) (a.length + b.length)

/-- The effective similarity the standardizer uses for a raw query and a
canonical entry: `fuzz.ratio(full_process(query), full_process(choice))`. -/
def fuzzScore (query choice : String) : Nat :=
  fuzzScoreL (fullProcess query.data) (fullProcess choice.data)

/-- One step of Python `max` over the scored choices of `extractOne`:
replace the current best pair only on a strictly greater score, so the
first maximal choice wins. -/
def extractStep (scorer : List Char → List Char → Nat) (pq : List Char)
    (best : Option (String × Nat)) (c : String) : Option (String × Nat) :=
  let s := scorer pq (fullProcess c.data)
  match best with
  | none => some (c, s)
  | some bp => if bp.2 < s then some (c, s) else best

/-- `process.extractOne(query, choices, scorer)` with the default
processor: score the processed choices in order against the processed
query; keep the first maximal one; `none` only for empty `choices`
(`score_cutoff = 0` filters nothing over `Nat`). -/
def extractOneFirst (scorer : List Char → List Char → Nat) (query : String)
    (choices : List String) : Option (String × Nat) :=
  choices.foldl (extractStep scorer (fullProcess query.data)) none

/-! ## Taxonomy standardizer
(`ContributorCategorizer._standardize_single_category`, 180–202) -/

/-- `_standardize_single_category` with the scorer as the explicit
parameter it is at the `extractOne` call site. -/
def standardizeWith (scorer : List Char → List Char → Nat) (threshold : Nat)
    (category : String) : String :=
  if category = "" || stripS category = "" then "Other"
  else
    let c := stripS category
    if canonicalCategories.contains c then c
    else
      match extractOneFirst scorer c canonicalCategories with
      | some bp => if threshold ≤ bp.2 then bp.1 else "Other"
      | none => "Other"

/-- `_standardize_single_category`, scorer fixed to `fuzz.ratio`. -/
def standardizeSingleCategory (threshold : Nat) (category : String) : String :=
  standardizeWith fuzzScoreL threshold category

/-- Pure pair-level step of the first-max scan (used to reason about
`extractOneFirst` once the accumulator is populated). -/
def pairStep (g : String → Nat) (p : String × Nat) (c : String) :
    String × Nat :=
  if p.2 < g c then (c, g c) else p

/-- The best similarity of a label against the canonical entries —
the spec's "best similarity ratio against the canonical entries". -/
def bestCanonicalScore (L : String) : Nat :=
  (canonicalCategories.map (fun c => fuzzScore L c)).foldr max 0

/-- The first canonical entry (in taxonomy order) attaining the maximal
similarity with `L` — the spec's tie-break description. -/
def firstBestCanonical (L : String) : Option String :=
  canonicalCategories.find? (fun c => fuzzScore L c == bestCanonicalScore L)

/-! ## Stage 1 (`ContributorCategorizer._categorize_with_ai`, 76–132)

A `Row` is one input record's raw cells (`none` = missing/NaN).  `client`
abstracts `APIClient.categorize_contributor` applied to the cleaned
fields; `processed` is the mapping returned by `_load_progress`. -/

/-- One input row's raw cells. -/
structure Row where
  name : Option String
  employer : Option String
  occupation : Option String
deriving DecidableEq

/-- The contributors the loop at lines 93–103 collects: rows whose index
is not checkpointed, in input order, paired with their index. -/
def stage1Contributors (processed : List (Nat × String)) (rows : List Row) :
    List (Nat × Row) :=
  rows.enum.filter (fun p => (processed.lookup p.1).isNone)

/-- `for idx in m: categories[idx] = m[idx]` over a list initialized from
`init` (Python list assignment; indices are in range at every use). -/
def setAll (ps : List (Nat × String)) (init : List String) : List String :=
  ps.foldl (fun acc p => acc.set p.1 p.2) init

/-- The label column `_categorize_with_ai` computes: start from `['']*n`,
write the checkpointed labels, classify the remaining rows (cleaned
fields) in order, write their labels at their indices. -/
def categorizeWithAI
    (client : Option String → Option String → Option String → String)
    (processed : List (Nat × String)) (rows : List Row) : List String :=
  let contributors := stage1Contributors processed rows
  let withProcessed := setAll processed (List.replicate rows.length "")
  let newCats := contributors.map (fun p =>
    client (cleanString p.2.name) (cleanString p.2.employer)
      (cleanString p.2.occupation))
  setAll ((contributors.map Prod.fst).zip newCats) withProcessed

/-! # Theorems -/

/-- C9: for every call to `wait_if_needed` with `attempt > 0` the computed
sleep duration equals `base_delay * 2 ^ attempt` plus the jitter drawn
from `[0, 1)`, hence is at least `base_delay * 2 ^ attempt`, and does not
depend on the current or last-request time. -/
theorem c9_retry_backoff_duration (baseDelay jR jN nowA lastA nowB lastB : ℚ)
    (attempt : Nat) (hpos : 0 < attempt) (h0 : 0 ≤ jR) (_hlt : jR < 1) :
    waitDuration baseDelay attempt jR jN nowA lastA
        = baseDelay * 2 ^ attempt + jR ∧
    baseDelay * 2 ^ attempt ≤ waitDuration baseDelay attempt jR jN nowA lastA ∧
    waitDuration baseDelay attempt jR jN nowB lastB
        = waitDuration baseDelay attempt jR jN nowA lastA := by
  unfold waitDuration
  simp only [if_pos hpos]
  refine ⟨by trivial, by linarith, by trivial⟩

/-- Witness for `c9_retry_backoff_duration` at the default
`base_delay = 1.5`, `attempt = 1`, jitter `1/2`. -/
theorem c9_retry_backoff_duration_witness :
    waitDuration (3/2) 1 (1/2) (1/10) 100 7
        = (3/2) * 2 ^ 1 + 1/2 ∧
    (3/2) * 2 ^ 1 ≤ waitDuration (3/2) 1 (1/2) (1/10) 100 7 ∧
    waitDuration (3/2) 1 (1/2) (1/10) 5 3
        = waitDuration (3/2) 1 (1/2) (1/10) 100 7 :=
  c9_retry_backoff_duration (3/2) (1/2) (1/10) 100 7 5 3 1
    (by decide) (by norm_num) (by norm_num)

/-- C8 (counterexample): a whitespace-only `name` is cleaned to the empty
string and interpolated into the prompt as the empty string, not as the
"Not provided" sentinel. -/
theorem c8_name_blank_counterexample :
    nameField (cleanString (some " ")) = "" ∧
    nameField (cleanString (some " ")) ≠ "Not provided" := by
  constructor <;> decide

/-- C8 (amended): `employer` and `occupation` are trimmed and every blank
value (missing, empty or all-whitespace) is presented as the
"Not provided" sentinel; `name` is trimmed but interpolated directly, so
a blank name is presented as the empty string (and a missing name as
Python's rendering of `None`), not as the sentinel. -/
theorem c8_field_presentation (raw : Option String) :
    sentinelIfBlank (cleanString raw)
        = (match raw with
           | none => "Not provided"
           | some s => if stripS s = "" then "Not provided" else stripS s) ∧
    nameField (cleanString raw)
        = (match raw with
           | none => "None"
           | some s => if s = "" then "None" else stripS s) := by
  match raw with
  | none => exact ⟨rfl, rfl⟩
  | some s =>
    by_cases hs : s = ""
    · subst hs
      exact ⟨by decide, by decide⟩
    · simp [cleanString, sentinelIfBlank, nameField, hs]

/-- C7 (counterexample): saving over a legacy-shaped checkpoint does not
reinitialize the envelope: the legacy entries survive, the stored
`dataset_size` is the legacy entry count (1), not the supplied size (10),
and no `created_at` is set. -/
theorem c7_legacy_save_counterexample :
    saveProgress 7 (some (.legacy [(0, "X")])) 5 "Y" 10
        = some (.envelope [(0, "X"), (5, "Y")] 1 none) ∧
    saveProgress 7 (some (.legacy [(0, "X")])) 5 "Y" 10
        ≠ some (.envelope [(5, "Y")] 10 (some 7)) := by
  constructor <;> decide

/-- C7 (amended): when no checkpoint is persisted, `save` initializes the
envelope with the single new entry, the supplied `dataset_size` and
`created_at = now`; when the persisted data is in legacy shape, the raw
load wraps it into an envelope that keeps the legacy entries and uses
their count as `dataset_size` (no `created_at`), and `save` only adds the
new entry to that envelope — the supplied `dataset_size` is stored only
in the absent case. -/
theorem c7_save_envelope (now index datasetSize : Nat) (label : String)
    (m : List (Nat × String)) :
    saveProgress now none index label datasetSize
        = some (.envelope [(index, label)] datasetSize (some now)) ∧
    saveProgress now (some (.legacy m)) index label datasetSize
        = some (.envelope (dictInsert m index label) m.length none) := by
  constructor
  · simp [saveProgress, loadProgressRaw, dictInsert, List.lookup]
  · simp [saveProgress, loadProgressRaw]

/-- C4: from no checkpoint, saving `(i, "Lawyers")` then `(j, "Other")`
for dataset size `N` and loading with expected size `N` yields exactly the
mapping `{i: "Lawyers", j: "Other"}` (later save wins on `i = j`, as in a
Python dict literal), while loading with any other expected size `M`
yields the empty mapping. -/
theorem c4_checkpoint_roundtrip (i j N M k nowA nowB : Nat) (hMN : M ≠ N) :
    (loadProgress
        (saveProgress nowB (saveProgress nowA none i "Lawyers" N) j "Other" N)
        N).lookup k
      = (if k = j then some "Other" else
         if k = i then some "Lawyers" else none) ∧
    loadProgress
        (saveProgress nowB (saveProgress nowA none i "Lawyers" N) j "Other" N)
        M = [] := by
  have h1 : saveProgress nowA none i "Lawyers" N
      = some (.envelope [(i, "Lawyers")] N (some nowA)) := by
    simp [saveProgress, loadProgressRaw, dictInsert, List.lookup]
  rw [h1]
  have h2 : saveProgress nowB (some (.envelope [(i, "Lawyers")] N (some nowA)))
      j "Other" N
      = some (.envelope (dictInsert [(i, "Lawyers")] j "Other") N (some nowA)) := by
    simp [saveProgress, loadProgressRaw]
  rw [h2]
  constructor
  · have h3 : loadProgress
        (some (.envelope (dictInsert [(i, "Lawyers")] j "Other") N (some nowA)))
        N = dictInsert [(i, "Lawyers")] j "Other" := by
      simp [loadProgress, loadProgressRaw]
    rw [h3]
    by_cases hij : i = j
    · subst hij
      have h4 : dictInsert [(i, "Lawyers")] i "Other" = [(i, "Other")] := by
        simp [dictInsert, List.lookup_cons]
      rw [h4]
      by_cases hk : k = i
      · have hb : (k == i) = true := beq_iff_eq.mpr hk
        simp [List.lookup_cons, hb, hk]
      · have hb : (k == i) = false := beq_eq_false_iff_ne.mpr hk
        simp [List.lookup_cons, hb, hk]
    · have h4 : dictInsert [(i, "Lawyers")] j "Other"
          = [(i, "Lawyers"), (j, "Other")] := by
        have hb : (j == i) = false := beq_eq_false_iff_ne.mpr (Ne.symm hij)
        simp [dictInsert, List.lookup_cons, hb]
      rw [h4]
      by_cases hkj : k = j
      · subst hkj
        have hb : (k == i) = false := beq_eq_false_iff_ne.mpr (Ne.symm hij)
        simp [List.lookup_cons, hb]
      · by_cases hki : k = i
        · subst hki
          have hb1 : (k == k) = true := beq_iff_eq.mpr rfl
          have hb2 : (k == j) = false := beq_eq_false_iff_ne.mpr hkj
          simp [List.lookup_cons, hb1, hb2, hkj]
        · have hb1 : (k == i) = false := beq_eq_false_iff_ne.mpr hki
          have hb2 : (k == j) = false := beq_eq_false_iff_ne.mpr hkj
          simp [List.lookup_cons, hb1, hb2, hki, hkj]
  · simp [loadProgress, loadProgressRaw, Ne.symm hMN]

/-- Witness for `c4_checkpoint_roundtrip` at `i = 0`, `j = 1`, `N = 2`,
`M = 3`, `k = 1`. -/
theorem c4_checkpoint_roundtrip_witness :
    (loadProgress
        (saveProgress 6 (saveProgress 5 none 0 "Lawyers" 2) 1 "Other" 2)
        2).lookup 1
      = (if 1 = 1 then some "Other" else
         if 1 = 0 then some "Lawyers" else none) ∧
    loadProgress
        (saveProgress 6 (saveProgress 5 none 0 "Lawyers" 2) 1 "Other" 2)
        3 = [] :=
  c4_checkpoint_roundtrip 0 1 2 3 1 5 6 (by decide)

/-- Under an always-throttling call oracle the retry loop consumes all of
its fuel, making one attempt per unit of fuel, and ends in `"Other"`. -/
theorem categorizeAux_throttle (call : Nat → CallResult) (mr : Nat)
    (h : ∀ a, ∃ m, call a = .failure m ∧ isThrottling m = true) :
    ∀ fuel attempt, attempt + fuel = mr + 1 →
      categorizeAux call mr attempt fuel = ("Other", fuel) := by
  intro fuel
  induction fuel with
  | zero => intro attempt _; rfl
  | succ fuel ih =>
    intro attempt hsum
    obtain ⟨m, hc, ht⟩ := h attempt
    by_cases hlt : attempt < mr
    · have hrec := ih (attempt + 1) (by omega)
      simp [categorizeAux, hc, ht, hlt, hrec]
    · have hfu : fuel = 0 := by omega
      subst hfu
      simp [categorizeAux, hc, ht, hlt]

/-- C1: `classify` never raises (it is total and always yields a label);
when every external attempt fails with a throttling-indicating message
(containing "529", "rate" or "limit" case-insensitively), it makes exactly
`max_retries + 1` attempts and returns `"Other"`; when the first attempt
fails with a non-throttling error, it returns `"Other"` after exactly one
attempt. -/
theorem c1_classify_fallback (call : Nat → CallResult) (mr : Nat) :
    ((∀ a, ∃ m, call a = .failure m ∧ isThrottling m = true) →
        categorizeContributor call mr = ("Other", mr + 1)) ∧
    (∀ m, call 0 = .failure m → isThrottling m = false →
        categorizeContributor call mr = ("Other", 1)) := by
  constructor
  · intro h
    exact categorizeAux_throttle call mr h (mr + 1) 0 (by omega)
  · intro m hc ht
    unfold categorizeContributor
    by_cases h0 : 0 < mr <;> simp [categorizeAux, hc, ht]

/-- Witness for `c1_classify_fallback` with `max_retries = 2`: a
throttling oracle yields 3 attempts, a non-throttling one yields 1. -/
theorem c1_classify_fallback_witness :
    categorizeContributor (fun _ => .failure "rate limit hit") 2
        = ("Other", 3) ∧
    categorizeContributor (fun _ => .failure "boom") 2 = ("Other", 1) :=
  ⟨(c1_classify_fallback (fun _ => .failure "rate limit hit") 2).1
      (fun _ => ⟨"rate limit hit", rfl, by decide⟩),
   (c1_classify_fallback (fun _ => .failure "boom") 2).2
      "boom" rfl (by decide)⟩

/-- C10: on a successful first response whose text trims to the empty
string, or whose text contains the `"Category:"` delimiter with only
whitespace after its last occurrence, `classify` returns the empty string
as the label (no non-emptiness or taxonomy-membership check happens). -/
theorem c10_empty_label (call : Nat → CallResult) (mr : Nat) (T : String)
    (hc : call 0 = .success T)
    (h : stripS T = "" ∨
        (containsSub "Category:".data (stripS T).data = true ∧
         stripS ⟨afterLast "Category:".data (stripS T).data⟩ = "")) :
    categorizeContributor call mr = ("", 1) := by
  have hext : extractCategory T = "" := by
    unfold extractCategory
    rcases h with h0 | ⟨h1, h2⟩
    · rw [h0]
      decide
    · rw [if_pos h1]
      exact h2
  unfold categorizeContributor
  simp [categorizeAux, hc, hext]

/-- Witness for `c10_empty_label`: a response consisting of exactly the
delimiter produces the empty label after one attempt. -/
theorem c10_empty_label_witness :
    categorizeContributor (fun _ => .success "Category:") 5 = ("", 1) :=
  c10_empty_label (fun _ => .success "Category:") 5 "Category:" rfl
    (Or.inr ⟨by decide, by decide⟩)

/-- Every result of the first-max fold over `choices` is one of the
choices. -/
theorem foldl_extractStep_mem (scorer : List Char → List Char → Nat)
    (pq : List Char) :
    ∀ (l : List String) (acc : Option (String × Nat)) (bp : String × Nat),
      l.foldl (extractStep scorer pq) acc = some bp →
      acc = some bp ∨ bp.1 ∈ l := by
  intro l
  induction l with
  | nil => intro acc bp h; exact Or.inl h
  | cons c rest ih =>
    intro acc bp h
    rcases ih (extractStep scorer pq acc c) bp h with hstep | hmem
    · unfold extractStep at hstep
      match acc with
      | none =>
        simp only at hstep
        have hbp : bp = (c, scorer pq (fullProcess c.data)) :=
          (Option.some.inj hstep).symm
        exact Or.inr (by rw [hbp]; exact List.mem_cons_self c rest)
      | some prev =>
        simp only at hstep
        by_cases hlt : prev.2 < scorer pq (fullProcess c.data)
        · rw [if_pos hlt] at hstep
          have hbp : bp = (c, scorer pq (fullProcess c.data)) :=
            (Option.some.inj hstep).symm
          exact Or.inr (by rw [hbp]; exact List.mem_cons_self c rest)
        · rw [if_neg hlt] at hstep
          exact Or.inl hstep
    · exact Or.inr (List.mem_cons_of_mem c hmem)

/-- C6: every output of `standardize` is a member of the closed canonical
taxonomy (the fallback `"Other"` is itself the last canonical entry),
whatever the configured threshold. -/
theorem c6_closed_taxonomy (threshold : Nat) (category : String) :
    standardizeSingleCategory threshold category ∈ canonicalCategories := by
  unfold standardizeSingleCategory standardizeWith
  by_cases hblank : category = "" || stripS category = ""
  · rw [if_pos hblank]
    decide
  · rw [if_neg hblank]
    by_cases hex : canonicalCategories.contains (stripS category)
    · simp only [if_pos hex]
      exact List.mem_of_elem_eq_true hex
    · simp only [if_neg hex]
      cases hfold : extractOneFirst fuzzScoreL (stripS category)
          canonicalCategories with
      | none =>
        show ("Other" : String) ∈ canonicalCategories
        decide
      | some bp =>
        have hmem : bp.1 ∈ canonicalCategories := by
          rcases foldl_extractStep_mem fuzzScoreL
              (fullProcess (stripS category).data) canonicalCategories none bp
              hfold with hno | hm
          · exact absurd hno (by simp)
          · exact hm
        show (if threshold ≤ bp.2 then bp.1 else "Other") ∈ canonicalCategories
        by_cases hth : threshold ≤ bp.2
        · rw [if_pos hth]
          exact hmem
        · rw [if_neg hth]
          decide

/-- C3 (counterexample): a label that equals a canonical entry only after
trimming is not returned unchanged — the trimmed entry is returned. -/
theorem c3_trim_counterexample :
    standardizeSingleCategory fuzzyMatchThreshold " Lawyers" = "Lawyers" ∧
    standardizeSingleCategory fuzzyMatchThreshold " Lawyers" ≠ " Lawyers" := by
  constructor <;> decide

/-- C3 (amended): for every label whose trimmed form equals a canonical
entry, `standardize` returns that trimmed form (so labels already equal to
a canonical entry are returned unchanged), and the similarity scorer is
never consulted: the result is the same for every scorer. -/
theorem c3_exact_match_short_circuit
    (scorer : List Char → List Char → Nat) (threshold : Nat) (L : String)
    (h : stripS L ∈ canonicalCategories) :
    standardizeWith scorer threshold L = stripS L ∧
    standardizeSingleCategory threshold L = stripS L := by
  have hne : stripS L ≠ "" := by
    intro he
    rw [he] at h
    exact absurd h (by decide)
  have hblank : (L = "" || stripS L = "") = false := by
    have hL : L ≠ "" := by
      intro he
      apply hne
      rw [he]
      decide
    simp [hL, hne]
  have hc : canonicalCategories.contains (stripS L) = true :=
    List.elem_eq_true_of_mem h
  have hgen : ∀ sc, standardizeWith sc threshold L = stripS L := by
    intro sc
    unfold standardizeWith
    rw [hblank]
    simp only [Bool.false_eq_true, if_false, if_pos hc]
  exact ⟨hgen scorer, hgen fuzzScoreL⟩

/-- Witness for `c3_exact_match_short_circuit` at `" Lawyers"` with the
constant-zero scorer and the real scorer agreeing. -/
theorem c3_exact_match_short_circuit_witness :
    standardizeWith (fun _ _ => 0) fuzzyMatchThreshold " Lawyers" = stripS " Lawyers" ∧
    standardizeSingleCategory fuzzyMatchThreshold " Lawyers" = stripS " Lawyers" :=
  c3_exact_match_short_circuit (fun _ _ => 0) fuzzyMatchThreshold " Lawyers"
    (by decide)

/-- Leading whitespace does not change `stripL`. -/
theorem stripL_ws_left (u x : List Char) (hu : ∀ c ∈ u, isPyWS c = true) :
    stripL (u ++ x) = stripL x := by
  unfold stripL
  rw [List.dropWhile_append_of_pos hu]

/-- Trailing whitespace does not change `stripL`. -/
theorem stripL_ws_right (x v : List Char) (hv : ∀ c ∈ v, isPyWS c = true) :
    stripL (x ++ v) = stripL x := by
  unfold stripL dropTrail
  rw [List.dropWhile_append]
  by_cases hx : (x.dropWhile isPyWS).isEmpty
  · rw [if_pos hx]
    have hx0 : x.dropWhile isPyWS = [] := by
      cases h : x.dropWhile isPyWS with
      | nil => rfl
      | cons a y => rw [h] at hx; simp [List.isEmpty] at hx
    rw [hx0]
    have hall : ∀ c ∈ (v.dropWhile isPyWS).reverse, isPyWS c = true := by
      intro c hc
      exact hv c ((List.dropWhile_sublist isPyWS).mem (List.mem_reverse.mp hc))
    rw [List.dropWhile_eq_nil_iff.mpr (by
      intro c hc
      exact hall c hc)]
    simp
  · rw [if_neg hx]
    rw [List.reverse_append]
    have hallv : ∀ c ∈ v.reverse, isPyWS c = true := fun c hc =>
      hv c (List.mem_reverse.mp hc)
    rw [List.dropWhile_append_of_pos hallv]

/-- Every character list splits as leading whitespace, its strip, and
trailing whitespace. -/
theorem stripL_decomp (l : List Char) :
    ∃ u w, (∀ c ∈ u, isPyWS c = true) ∧ (∀ c ∈ w, isPyWS c = true) ∧
      l = u ++ stripL l ++ w := by
  refine ⟨l.takeWhile isPyWS,
    ((l.dropWhile isPyWS).reverse.takeWhile isPyWS).reverse, ?_, ?_, ?_⟩
  · intro c hc
    exact List.mem_takeWhile_imp hc
  · intro c hc
    exact List.mem_takeWhile_imp (List.mem_reverse.mp hc)
  · have h1 : l = l.takeWhile isPyWS ++ l.dropWhile isPyWS :=
      (List.takeWhile_append_dropWhile isPyWS l).symm
    have h2 : l.dropWhile isPyWS
        = stripL l ++ ((l.dropWhile isPyWS).reverse.takeWhile isPyWS).reverse := by
      have h3 : (l.dropWhile isPyWS).reverse
          = (l.dropWhile isPyWS).reverse.takeWhile isPyWS
            ++ (l.dropWhile isPyWS).reverse.dropWhile isPyWS :=
        (List.takeWhile_append_dropWhile isPyWS _).symm
      calc l.dropWhile isPyWS
          = (l.dropWhile isPyWS).reverse.reverse := (List.reverse_reverse _).symm
        _ = ((l.dropWhile isPyWS).reverse.takeWhile isPyWS
              ++ (l.dropWhile isPyWS).reverse.dropWhile isPyWS).reverse := by
            rw [← h3]
        _ = stripL l
              ++ ((l.dropWhile isPyWS).reverse.takeWhile isPyWS).reverse := by
            rw [List.reverse_append]
            rfl
    rw [List.append_assoc, ← h2]
    exact h1

/-- A whitespace character maps to a space under `full_process`'s
replace-then-lower transform. -/
theorem sigma_ws {c : Char} (h : isPyWS c = true) :
    Char.toLower (if isWordChar c then c else ' ') = ' ' := by
  unfold isPyWS at h
  simp only [Bool.or_eq_true, decide_eq_true_eq] at h
  rcases h with ((((h | h) | h) | h) | h) | h <;> subst h <;> decide

/-- `full_process` is invariant under pre-stripping: the strip it performs
absorbs the outer whitespace. -/
theorem fullProcess_stripL (l : List Char) :
    fullProcess (stripL l) = fullProcess l := by
  obtain ⟨u, w, hu, hw, hdec⟩ := stripL_decomp l
  unfold fullProcess
  conv_rhs => rw [hdec]
  rw [List.map_append, List.map_append, List.map_append, List.map_append]
  have hmu : ∀ c ∈ (u.map fun c => if isWordChar c then c else ' ').map
      Char.toLower, isPyWS c = true := by
    intro c hc
    rcases List.mem_map.mp hc with ⟨c1, hc1, hc1e⟩
    rcases List.mem_map.mp hc1 with ⟨c0, hc0, hc0e⟩
    rw [← hc1e, ← hc0e, sigma_ws (hu c0 hc0)]
    decide
  have hmw : ∀ c ∈ (w.map fun c => if isWordChar c then c else ' ').map
      Char.toLower, isPyWS c = true := by
    intro c hc
    rcases List.mem_map.mp hc with ⟨c1, hc1, hc1e⟩
    rcases List.mem_map.mp hc1 with ⟨c0, hc0, hc0e⟩
    rw [← hc1e, ← hc0e, sigma_ws (hw c0 hc0)]
    decide
  rw [List.append_assoc]
  rw [stripL_ws_left _ _ hmu, stripL_ws_right _ _ hmw]

/-- The similarity the standardizer computes for the trimmed label equals
the similarity of the raw label. -/
theorem fuzzScore_stripS (L c : String) :
    fuzzScore (stripS L) c = fuzzScore L c := by
  unfold fuzzScore
  have hdata : (stripS L).data = stripL L.data := rfl
  rw [hdata, fullProcess_stripL]

/-- Once the accumulator of `extractOneFirst` is populated with a
choice/score pair, the fold is the pure pair-level first-max scan. -/
theorem foldl_extractStep_eq_pairStep (scorer : List Char → List Char → Nat)
    (pq : List Char) :
    ∀ (xs : List String) (b : String),
      xs.foldl (extractStep scorer pq)
          (some (b, scorer pq (fullProcess b.data)))
        = some (xs.foldl (pairStep fun c => scorer pq (fullProcess c.data))
            (b, scorer pq (fullProcess b.data))) := by
  intro xs
  induction xs with
  | nil => intro b; rfl
  | cons c rest ih =>
    intro b
    rw [List.foldl_cons, List.foldl_cons]
    by_cases hlt : scorer pq (fullProcess b.data) < scorer pq (fullProcess c.data)
    · have hstep : extractStep scorer pq
          (some (b, scorer pq (fullProcess b.data))) c
          = some (c, scorer pq (fullProcess c.data)) := by
        unfold extractStep
        simp only
        rw [if_pos hlt]
      have hpair : pairStep (fun c => scorer pq (fullProcess c.data))
          (b, scorer pq (fullProcess b.data)) c
          = (c, scorer pq (fullProcess c.data)) := by
        unfold pairStep
        simp only
        rw [if_pos hlt]
      rw [hstep, hpair, ih c]
    · have hstep : extractStep scorer pq
          (some (b, scorer pq (fullProcess b.data))) c
          = some (b, scorer pq (fullProcess b.data)) := by
        unfold extractStep
        simp only
        rw [if_neg hlt]
      have hpair : pairStep (fun c => scorer pq (fullProcess c.data))
          (b, scorer pq (fullProcess b.data)) c
          = (b, scorer pq (fullProcess b.data)) := by
        unfold pairStep
        simp only
        rw [if_neg hlt]
      rw [hstep, hpair, ih b]

/-- One step of the pair scan starting from a score-faithful pair. -/
theorem pairStep_eval (g : String → Nat) (b c : String) :
    pairStep g (b, g b) c = (if g b < g c then c else b,
      g (if g b < g c then c else b)) := by
  unfold pairStep
  by_cases h : g b < g c
  · simp only [if_pos h]
  · simp only [if_neg h]

/-- The score of the pair scan's result is the maximum of the initial
score and all scanned scores. -/
theorem pairScan_snd (g : String → Nat) :
    ∀ (xs : List String) (b : String),
      (xs.foldl (pairStep g) (b, g b)).2 = max (g b) ((xs.map g).foldr max 0) := by
  intro xs
  induction xs with
  | nil => intro b; simp
  | cons c rest ih =>
    intro b
    rw [List.foldl_cons, pairStep_eval]
    rw [ih (if g b < g c then c else b)]
    have hg : g (if g b < g c then c else b) = max (g b) (g c) := by
      by_cases h : g b < g c
      · rw [if_pos h, Nat.max_eq_right (Nat.le_of_lt h)]
      · rw [if_neg h, Nat.max_eq_left (Nat.le_of_not_lt h)]
    rw [hg, List.map_cons, List.foldr_cons, Nat.max_assoc]

/-- The pair scan's result is score-faithful: its second component is the
score of its first component. -/
theorem pairScan_faithful (g : String → Nat) :
    ∀ (xs : List String) (b : String),
      (xs.foldl (pairStep g) (b, g b)).2 = g (xs.foldl (pairStep g) (b, g b)).1 := by
  intro xs
  induction xs with
  | nil => intro b; rfl
  | cons c rest ih =>
    intro b
    rw [List.foldl_cons, pairStep_eval, ih]

/-- The pair scan selects the first element (among the seed and the
scanned list, in order) attaining the maximal score. -/
theorem pairScan_find (g : String → Nat) :
    ∀ (xs : List String) (b : String),
      (b :: xs).find? (fun c => g c == (xs.foldl (pairStep g) (b, g b)).2)
        = some (xs.foldl (pairStep g) (b, g b)).1 := by
  intro xs
  induction xs with
  | nil =>
    intro b
    have hb : (g b == g b) = true := beq_iff_eq.mpr rfl
    simp [List.find?_cons_of_pos, hb]
  | cons c rest ih =>
    intro b
    rw [List.foldl_cons, pairStep_eval]
    set b2 := if g b < g c then c else b with hb2
    have ihb2 := ih b2
    have hs2 : (rest.foldl (pairStep g) (b2, g b2)).2
        = max (g b2) ((rest.map g).foldr max 0) := pairScan_snd g rest b2
    by_cases hbc : g b < g c
    · have hb2c : b2 = c := by rw [hb2, if_pos hbc]
      have hblt : g b < (rest.foldl (pairStep g) (b2, g b2)).2 := by
        rw [hs2]
        calc g b < g c := hbc
          _ = g b2 := by rw [hb2c]
          _ ≤ max (g b2) ((rest.map g).foldr max 0) := Nat.le_max_left _ _
      have hpred : (g b == (rest.foldl (pairStep g) (b2, g b2)).2) = false :=
        beq_eq_false_iff_ne.mpr (Nat.ne_of_lt hblt)
      rw [List.find?_cons_of_neg _ (by rw [hpred]; exact Bool.false_ne_true)]
      rw [← hb2c]
      exact ihb2
    · have hb2b : b2 = b := by rw [hb2, if_neg hbc]
      rw [hb2b] at ihb2 hs2 ⊢
      have hble : g c ≤ g b := Nat.le_of_not_lt hbc
      by_cases hgb : g b = (rest.foldl (pairStep g) (b, g b)).2
      · have hpredb : (g b == (rest.foldl (pairStep g) (b, g b)).2) = true :=
          beq_iff_eq.mpr hgb
        rw [List.find?_cons_of_pos _ (by rw [hpredb])]
        rw [List.find?_cons_of_pos _ (by rw [hpredb])] at ihb2
        exact ihb2
      · have hpredb : (g b == (rest.foldl (pairStep g) (b, g b)).2) = false :=
          beq_eq_false_iff_ne.mpr hgb
        have hgc : g c ≠ (rest.foldl (pairStep g) (b, g b)).2 := by
          intro hc
          apply hgb
          have hle1 : g b ≤ (rest.foldl (pairStep g) (b, g b)).2 := by
            rw [hs2]
            exact Nat.le_max_left _ _
          have hle2 : (rest.foldl (pairStep g) (b, g b)).2 ≤ g b := by
            rw [← hc] at hle1 ⊢
            exact hble
          exact Nat.le_antisymm hle1 hle2
        have hpredc : (g c == (rest.foldl (pairStep g) (b, g b)).2) = false :=
          beq_eq_false_iff_ne.mpr hgc
        rw [List.find?_cons_of_neg _ (by rw [hpredb]; exact Bool.false_ne_true)]
        rw [List.find?_cons_of_neg _ (by rw [hpredc]; exact Bool.false_ne_true)]
        rw [List.find?_cons_of_neg _ (by rw [hpredb]; exact Bool.false_ne_true)]
          at ihb2
        exact ihb2

/-- A member's score is at most the folded maximum. -/
theorem le_foldr_max_of_mem (g : String → Nat) :
    ∀ (l : List String) (c : String), c ∈ l → g c ≤ (l.map g).foldr max 0 := by
  intro l
  induction l with
  | nil => intro c hc; exact absurd hc (List.not_mem_nil c)
  | cons x xs ih =>
    intro c hc
    rw [List.map_cons, List.foldr_cons]
    rcases List.mem_cons.mp hc with hcx | hcs
    · rw [hcx]; exact Nat.le_max_left _ _
    · exact Nat.le_trans (ih c hcs) (Nat.le_max_right _ _)

/-- The folded maximum is bounded by any common bound of the scores. -/
theorem foldr_max_le (g : String → Nat) (K : Nat) :
    ∀ l : List String, (∀ c ∈ l, g c ≤ K) → (l.map g).foldr max 0 ≤ K := by
  intro l
  induction l with
  | nil => intro _; exact Nat.zero_le K
  | cons x xs ih =>
    intro h
    rw [List.map_cons, List.foldr_cons]
    exact Nat.max_le.mpr ⟨h x (List.mem_cons_self x xs),
      ih (fun c hc => h c (List.mem_cons_of_mem x hc))⟩

/-- `find?` skips a prefix on which the predicate is false everywhere. -/
theorem find?_append_of_neg (pred : String → Bool) :
    ∀ (l₁ l₂ : List String), (∀ c ∈ l₁, pred c = false) →
      (l₁ ++ l₂).find? pred = l₂.find? pred := by
  intro l₁
  induction l₁ with
  | nil => intro l₂ _; rfl
  | cons x xs ih =>
    intro l₂ h
    rw [List.cons_append, List.find?_cons_of_neg _ (by
      rw [h x (List.mem_cons_self x xs)]; exact Bool.false_ne_true)]
    exact ih l₂ (fun c hc => h c (List.mem_cons_of_mem x hc))

/-- The canonical entries are pairwise distinct. -/
theorem canonicalCategories_nodup : canonicalCategories.Nodup := by decide

/-- The LCS length is bounded by the first string's length (any fuel). -/
theorem lcsFuel_le_left :
    ∀ (fuel : Nat) (a b : List Char), lcsFuel fuel a b ≤ a.length := by
  intro fuel
  induction fuel with
  | zero => intro a b; exact Nat.zero_le _
  | succ fuel ih =>
    intro a b
    match a, b with
    | [], _ => simp [lcsFuel]
    | _ :: _, [] => simp [lcsFuel]
    | a :: as, b :: bs =>
      by_cases hab : a = b
      · simp only [lcsFuel, if_pos hab, List.length_cons]
        exact Nat.succ_le_succ (ih as bs)
      · simp only [lcsFuel, if_neg hab, List.length_cons]
        exact Nat.max_le.mpr
          ⟨Nat.le_trans (ih as (b :: bs)) (Nat.le_succ _), ih (a :: as) bs⟩

/-- The LCS length is bounded by the second string's length (any fuel). -/
theorem lcsFuel_le_right :
    ∀ (fuel : Nat) (a b : List Char), lcsFuel fuel a b ≤ b.length := by
  intro fuel
  induction fuel with
  | zero => intro a b; exact Nat.zero_le _
  | succ fuel ih =>
    intro a b
    match a, b with
    | [], _ => simp [lcsFuel]
    | _ :: _, [] => simp [lcsFuel]
    | a :: as, b :: bs =>
      by_cases hab : a = b
      · simp only [lcsFuel, if_pos hab, List.length_cons]
        exact Nat.succ_le_succ (ih as bs)
      · simp only [lcsFuel, if_neg hab, List.length_cons]
        exact Nat.max_le.mpr
          ⟨ih as (b :: bs), Nat.le_trans (ih (a :: as) bs) (Nat.le_succ _)⟩

/-- With sufficient fuel, the LCS of a string with itself is its length. -/
theorem lcsFuel_self :
    ∀ (a : List Char) (fuel : Nat), a.length + a.length ≤ fuel →
      lcsFuel fuel a a = a.length := by
  intro a
  induction a with
  | nil =>
    intro fuel _
    match fuel with
    | 0 => rfl
    | _ + 1 => rfl
  | cons a as ih =>
    intro fuel hfuel
    match fuel with
    | 0 => simp at hfuel
    | fuel + 1 =>
      have hrec : lcsFuel fuel as as = as.length :=
        ih fuel (by simp at hfuel; omega)
      simp [lcsFuel, hrec]

/-- With sufficient fuel, an LCS as long as both strings together forces
the strings to be equal. -/
theorem lcsFuel_full :
    ∀ (fuel : Nat) (a b : List Char), a.length + b.length ≤ fuel →
      2 * lcsFuel fuel a b = a.length + b.length → a = b := by
  intro fuel
  induction fuel with
  | zero =>
    intro a b hfuel _
    have ha : a.length = 0 := by omega
    have hb : b.length = 0 := by omega
    rw [List.length_eq_zero.mp ha, List.length_eq_zero.mp hb]
  | succ fuel ih =>
    intro a b hfuel hfull
    match a, b with
    | [], b =>
      have : b.length = 0 := by simp [lcsFuel] at hfull; omega
      rw [List.length_eq_zero.mp this]
    | a :: as, [] =>
      exfalso
      simp [lcsFuel] at hfull
    | a :: as, b :: bs =>
      by_cases hab : a = b
      · subst hab
        have h2 : 2 * lcsFuel fuel as bs = as.length + bs.length := by
          simp [lcsFuel] at hfull
          omega
        rw [ih as bs (by simp at hfuel; omega) h2]
      · exfalso
        have h1 := lcsFuel_le_left fuel as (b :: bs)
        have h2 := lcsFuel_le_right fuel as (b :: bs)
        have h3 := lcsFuel_le_left fuel (a :: as) bs
        have h4 := lcsFuel_le_right fuel (a :: as) bs
        simp only [lcsFuel, if_neg hab, List.length_cons] at hfull
        simp only [List.length_cons] at h2 h3
        rcases max_choice (lcsFuel fuel as (b :: bs))
            (lcsFuel fuel (a :: as) bs) with hm | hm <;> rw [hm] at hfull <;>
          omega

/-- Banker's rounding of an exact multiple. -/
theorem bankersRound_exact (k den : Nat) (hd : 0 < den) :
    bankersRound (k * den) den = k := by
  unfold bankersRound
  rw [Nat.mul_div_cancel _ hd, Nat.mul_mod_left]
  simp [hd]

/-- Banker's rounding of a proper ratio never exceeds 100. -/
theorem bankersRound_le_100 (num den : Nat) (hd : 0 < den)
    (h : num ≤ 100 * den) : bankersRound num den ≤ 100 := by
  have hq : num / den ≤ 100 := by
    calc num / den ≤ 100 * den / den := Nat.div_le_div_right h
      _ = 100 := Nat.mul_div_cancel _ hd
  have hdm := Nat.div_add_mod num den
  have hr : num % den < den := Nat.mod_lt _ hd
  unfold bankersRound
  by_cases hc1 : 2 * (num % den) < den
  · rw [if_pos hc1]
    exact hq
  · rw [if_neg hc1]
    have hq99 : num / den ≤ 99 := by
      rcases Nat.lt_or_ge (num / den) 100 with hlt | hge
      · omega
      · exfalso
        have h100 : num / den = 100 := Nat.le_antisymm hq hge
        rw [h100] at hdm
        omega
    by_cases hc2 : den < 2 * (num % den)
    · rw [if_pos hc2]
      omega
    · rw [if_neg hc2]
      by_cases hc3 : num / den % 2 = 0
      · rw [if_pos hc3]
        exact hq
      · rw [if_neg hc3]
        omega

/-- If a ratio of at most one rounds to 100 and the denominator is below
200, the ratio was exactly one. -/
theorem bankersRound_eq_100 (L den : Nat) (hd : 0 < den) (hsmall : den < 200)
    (hle : 2 * L ≤ den) (h100 : bankersRound (200 * L) den = 100) :
    2 * L = den := by
  have hdm := Nat.div_add_mod (200 * L) den
  have hr : 200 * L % den < den := Nat.mod_lt _ hd
  have hq : 200 * L / den ≤ 100 := by
    calc 200 * L / den ≤ 100 * den / den :=
        Nat.div_le_div_right (by omega)
      _ = 100 := Nat.mul_div_cancel _ hd
  unfold bankersRound at h100
  by_cases hc1 : 2 * (200 * L % den) < den
  · rw [if_pos hc1] at h100
    rw [h100] at hdm
    omega
  · rw [if_neg hc1] at h100
    by_cases hc2 : den < 2 * (200 * L % den)
    · rw [if_pos hc2] at h100
      have hq99 : 200 * L / den = 99 := by omega
      rw [hq99] at hdm
      omega
    · rw [if_neg hc2] at h100
      by_cases hc3 : 200 * L / den % 2 = 0
      · rw [if_pos hc3] at h100
        rw [h100] at hdm
        omega
      · rw [if_neg hc3] at h100
        have hq99 : 200 * L / den = 99 := by omega
        rw [hq99] at hdm
        omega

/-- `fuzz.ratio` of a processed string with itself is 100. -/
theorem fuzzScoreL_self (a : List Char) : fuzzScoreL a a = 100 := by
  unfold fuzzScoreL
  by_cases h0 : a.length + a.length = 0
  · rw [if_pos h0]
  · rw [if_neg h0, lcsL]
    rw [lcsFuel_self a (a.length + a.length) (Nat.le_refl _)]
    have h : 200 * a.length = 100 * (a.length + a.length) := by omega
    rw [h, bankersRound_exact _ _ (by omega)]

/-- `fuzz.ratio` never exceeds 100. -/
theorem fuzzScoreL_le_100 (a b : List Char) : fuzzScoreL a b ≤ 100 := by
  unfold fuzzScoreL
  by_cases h0 : a.length + b.length = 0
  · rw [if_pos h0]
  · rw [if_neg h0]
    have h1 := lcsFuel_le_left (a.length + b.length) a b
    have h2 := lcsFuel_le_right (a.length + b.length) a b
    exact bankersRound_le_100 _ _ (by omega) (by rw [lcsL]; omega)

/-- For strings of combined length under 200 a `fuzz.ratio` of 100 forces
equality (longer strings could round a near-miss up to 100). -/
theorem fuzzScoreL_eq_100 (a b : List Char)
    (hlen : a.length + b.length < 200) (h : fuzzScoreL a b = 100) :
    a = b := by
  unfold fuzzScoreL at h
  by_cases h0 : a.length + b.length = 0
  · have ha : a.length = 0 := by omega
    have hb : b.length = 0 := by omega
    rw [List.length_eq_zero.mp ha, List.length_eq_zero.mp hb]
  · rw [if_neg h0] at h
    have h1 := lcsFuel_le_left (a.length + b.length) a b
    have h2 := lcsFuel_le_right (a.length + b.length) a b
    have hfull : 2 * lcsL a b = a.length + b.length := by
      refine bankersRound_eq_100 _ _ (by omega) hlen ?_ h
      rw [lcsL]
      omega
    exact lcsFuel_full (a.length + b.length) a b (Nat.le_refl _)
      (by rw [← lcsL]; exact hfull)

/-- Every canonical entry processes to at most 60 characters. -/
theorem fpLen_canonical :
    ∀ e ∈ canonicalCategories, (fullProcess e.data).length ≤ 60 := by decide

/-- Processing is injective on the canonical entries. -/
theorem fpInj_canonical :
    ∀ e ∈ canonicalCategories, ∀ c ∈ canonicalCategories,
      fullProcess e.data = fullProcess c.data → e = c := by decide

/-- `extractOne` on a non-empty choice list is the pair-level first-max
scan seeded with the first choice. -/
theorem extractOneFirst_eq (scorer : List Char → List Char → Nat)
    (q c₀ : String) (rest : List String) :
    extractOneFirst scorer q (c₀ :: rest)
      = some (rest.foldl
          (pairStep fun c => scorer (fullProcess q.data) (fullProcess c.data))
          (c₀, scorer (fullProcess q.data) (fullProcess c₀.data))) := by
  unfold extractOneFirst
  rw [List.foldl_cons]
  have hstep : extractStep scorer (fullProcess q.data) none c₀
      = some (c₀, scorer (fullProcess q.data) (fullProcess c₀.data)) := rfl
  rw [hstep]
  exact foldl_extractStep_eq_pairStep scorer (fullProcess q.data) rest c₀

/-- C2: `standardize` is total (never raises); for every non-blank label
whose best similarity against the canonical entries reaches the
configured threshold (validated to be at most 100; default 80), it
returns the first canonical entry, in taxonomy order, attaining the
maximal similarity; for every label whose best similarity is below the
threshold, and for every empty or all-whitespace label, it returns the
fallback `"Other"`. -/
theorem c2_standardize_best_match (threshold : Nat) (L : String)
    (hth : threshold ≤ 100) :
    ((stripS L ≠ "" ∧ threshold ≤ bestCanonicalScore L) →
      firstBestCanonical L = some (standardizeSingleCategory threshold L)) ∧
    ((stripS L = "" ∨ bestCanonicalScore L < threshold) →
      standardizeSingleCategory threshold L = "Other") := by
  by_cases hblank : stripS L = ""
  · constructor
    · intro h
      exact absurd hblank h.1
    · intro _
      have hcond : (decide (L = "") || decide (stripS L = "")) = true := by
        rw [hblank]
        simp
      unfold standardizeSingleCategory standardizeWith
      rw [hcond]
      rfl
  · have hL : L ≠ "" := fun he => hblank (by rw [he]; decide)
    have hcond : (decide (L = "") || decide (stripS L = "")) = false := by
      simp [hL, hblank]
    by_cases hex : canonicalCategories.contains (stripS L) = true
    · have hE : stripS L ∈ canonicalCategories := List.mem_of_elem_eq_true hex
      have hres : standardizeSingleCategory threshold L = stripS L := by
        unfold standardizeSingleCategory standardizeWith
        rw [hcond]
        simp only [Bool.false_eq_true, if_false, if_pos hex]
      have hub : ∀ c ∈ canonicalCategories, fuzzScore L c ≤ 100 := by
        intro c _
        exact fuzzScoreL_le_100 _ _
      have hdiag : fuzzScore L (stripS L) = 100 := by
        rw [← fuzzScore_stripS]
        exact fuzzScoreL_self _
      have hbest : bestCanonicalScore L = 100 := by
        apply Nat.le_antisymm
        · exact foldr_max_le _ 100 _ hub
        · rw [← hdiag]
          exact le_foldr_max_of_mem _ _ _ hE
      constructor
      · intro _
        rw [hres]
        unfold firstBestCanonical
        rw [hbest]
        obtain ⟨l₁, l₂, hdecomp⟩ := List.append_of_mem hE
        have hnd := canonicalCategories_nodup
        rw [hdecomp] at hnd
        have hdisj := (List.nodup_append.mp hnd).2.2
        have hnotmem : stripS L ∉ l₁ := fun hmem =>
          hdisj hmem (List.mem_cons_self _ _)
        rw [hdecomp]
        rw [find?_append_of_neg _ l₁ _ (by
          intro c hc
          have hcmem : c ∈ canonicalCategories := by
            rw [hdecomp]
            exact List.mem_append_left _ hc
          have hne : stripS L ≠ c := fun he => hnotmem (he ▸ hc)
          have hs : fuzzScore L c ≠ 100 := by
            rw [← fuzzScore_stripS]
            intro h100
            have hlen : (fullProcess (stripS L).data).length
                + (fullProcess c.data).length < 200 := by
              have hl1 := fpLen_canonical _ hE
              have hl2 := fpLen_canonical _ hcmem
              omega
            exact hne (fpInj_canonical _ hE _ hcmem
              (fuzzScoreL_eq_100 _ _ hlen h100))
          exact beq_eq_false_iff_ne.mpr hs)]
        apply List.find?_cons_of_pos
        show (fuzzScore L (stripS L) == 100) = true
        rw [hdiag]
        rfl
      · intro h
        rcases h with h | h
        · exact absurd h hblank
        · rw [hbest] at h
          exact absurd (Nat.lt_of_lt_of_le h hth) (Nat.lt_irrefl 100)
    · cases hcanon : canonicalCategories with
      | nil => exact absurd hcanon (by decide)
      | cons c₀ rest =>
        have hpt : ∀ c, fuzzScore L c = fuzzScoreL (fullProcess (stripS L).data)
            (fullProcess c.data) := by
          intro c
          rw [← fuzzScore_stripS]
          rfl
        have hgfun : (fun c => fuzzScore L c)
            = fun c => fuzzScoreL (fullProcess (stripS L).data)
                (fullProcess c.data) := funext hpt
        have hextract : extractOneFirst fuzzScoreL (stripS L) canonicalCategories
            = some (rest.foldl
                (pairStep fun c => fuzzScoreL (fullProcess (stripS L).data)
                  (fullProcess c.data))
                (c₀, fuzzScoreL (fullProcess (stripS L).data)
                  (fullProcess c₀.data))) := by
          rw [hcanon]
          exact extractOneFirst_eq fuzzScoreL (stripS L) c₀ rest
        have hres : standardizeSingleCategory threshold L
            = (if threshold ≤ (rest.foldl
                (pairStep fun c => fuzzScoreL (fullProcess (stripS L).data)
                  (fullProcess c.data))
                (c₀, fuzzScoreL (fullProcess (stripS L).data)
                  (fullProcess c₀.data))).2
              then (rest.foldl
                (pairStep fun c => fuzzScoreL (fullProcess (stripS L).data)
                  (fullProcess c.data))
                (c₀, fuzzScoreL (fullProcess (stripS L).data)
                  (fullProcess c₀.data))).1
              else "Other") := by
          unfold standardizeSingleCategory standardizeWith
          rw [hcond]
          simp only [Bool.false_eq_true, if_false, if_neg hex]
          rw [hextract]
        have hsnd : (rest.foldl
            (pairStep fun c => fuzzScoreL (fullProcess (stripS L).data)
              (fullProcess c.data))
            (c₀, fuzzScoreL (fullProcess (stripS L).data)
              (fullProcess c₀.data))).2 = bestCanonicalScore L := by
          rw [pairScan_snd]
          unfold bestCanonicalScore
          rw [hgfun, hcanon, List.map_cons, List.foldr_cons]
        have hfst : firstBestCanonical L
            = some (rest.foldl
                (pairStep fun c => fuzzScoreL (fullProcess (stripS L).data)
                  (fullProcess c.data))
                (c₀, fuzzScoreL (fullProcess (stripS L).data)
                  (fullProcess c₀.data))).1 := by
          unfold firstBestCanonical
          simp only [hpt]
          rw [← hsnd, hcanon]
          exact pairScan_find _ rest c₀
        constructor
        · intro h
          have hge : threshold ≤ (rest.foldl
              (pairStep fun c => fuzzScoreL (fullProcess (stripS L).data)
                (fullProcess c.data))
              (c₀, fuzzScoreL (fullProcess (stripS L).data)
                (fullProcess c₀.data))).2 := by
            rw [hsnd]
            exact h.2
          rw [hres, if_pos hge]
          exact hfst
        · intro h
          rcases h with h | h
          · exact absurd h hblank
          · have hlt : ¬ threshold ≤ (rest.foldl
                (pairStep fun c => fuzzScoreL (fullProcess (stripS L).data)
                  (fullProcess c.data))
                (c₀, fuzzScoreL (fullProcess (stripS L).data)
                  (fullProcess c₀.data))).2 := by
              rw [hsnd]
              exact Nat.not_le_of_lt h
            rw [hres, if_neg hlt]

set_option maxRecDepth 40000 in
/-- Witness for `c2_standardize_best_match` at threshold 80 and the label
`"Zq"`, whose best similarity against every canonical entry is below the
threshold, so the fallback is returned. -/
theorem c2_standardize_best_match_witness :
    standardizeSingleCategory 80 "Zq" = "Other" :=
  (c2_standardize_best_match 80 "Zq" (by decide)).2
    (Or.inr (by decide))

/-- `setAll` preserves the length of the written list. -/
theorem setAll_length (ps : List (Nat × String)) :
    ∀ init, (setAll ps init).length = init.length := by
  induction ps with
  | nil => intro init; rfl
  | cons p ps ih =>
    intro init
    have hstep : setAll (p :: ps) init = setAll ps (init.set p.1 p.2) := rfl
    rw [hstep, ih, List.length_set]

/-- Positions outside the written keys are untouched by `setAll`. -/
theorem setAll_getElem?_not_mem (ps : List (Nat × String)) (k : Nat)
    (hk : k ∉ ps.map Prod.fst) :
    ∀ init, (setAll ps init)[k]? = init[k]? := by
  induction ps with
  | nil => intro init; rfl
  | cons p ps ih =>
    intro init
    have hstep : setAll (p :: ps) init = setAll ps (init.set p.1 p.2) := rfl
    have hne : p.1 ≠ k := by
      intro he
      exact hk (he ▸ List.mem_map_of_mem Prod.fst (List.mem_cons_self p ps))
    have htail : k ∉ ps.map Prod.fst := fun hm =>
      hk (List.mem_cons_of_mem _ hm)
    rw [hstep, ih htail, List.getElem?_set_ne hne]

/-- A written key (unique among the keys) reads back its written value. -/
theorem setAll_getElem?_mem (ps : List (Nat × String))
    (hnd : (ps.map Prod.fst).Nodup) (k : Nat) (v : String)
    (hmem : (k, v) ∈ ps) :
    ∀ init, k < init.length → (setAll ps init)[k]? = some v := by
  induction ps with
  | nil => exact absurd hmem (List.not_mem_nil _)
  | cons p ps ih =>
    intro init hlen
    have hstep : setAll (p :: ps) init = setAll ps (init.set p.1 p.2) := rfl
    rw [List.map_cons, List.nodup_cons] at hnd
    rcases List.mem_cons.mp hmem with heq | hm
    · have hk1 : p.1 = k := by rw [← heq]
      have hv : p.2 = v := by rw [← heq]
      have hknot : k ∉ ps.map Prod.fst := hk1 ▸ hnd.1
      rw [hstep, setAll_getElem?_not_mem ps k hknot, hk1, hv,
        List.getElem?_set_self hlen]
    · rw [hstep]
      exact ih hnd.2 hm (init.set p.1 p.2)
        (by rw [List.length_set]; exact hlen)

/-- The first components of `enum` are `range`. -/
theorem enum_map_fst_range (rows : List Row) :
    rows.enum.map Prod.fst = List.range rows.length := by
  have h : rows.enum = rows.enumFrom 0 := rfl
  rw [h, List.enumFrom_map_fst, ← List.range_eq_range']

/-- The indices the stage-1 loop sends to the classifier are exactly the
non-checkpointed indices, in increasing input order. -/
theorem stage1Contributors_map_fst (processed : List (Nat × String))
    (rows : List Row) :
    (stage1Contributors processed rows).map Prod.fst
      = (List.range rows.length).filter
          (fun k => (processed.lookup k).isNone) := by
  unfold stage1Contributors
  have hq : (fun p : Nat × Row => (processed.lookup p.1).isNone)
      = ((fun k => (processed.lookup k).isNone) ∘ Prod.fst) := rfl
  rw [hq, ← List.filter_map, enum_map_fst_range]

/-- Core stage-1 description over an arbitrary loaded checkpoint mapping:
every checkpointed index keeps its stored label, every other index gets
the classifier's label for its (cleaned) row. -/
theorem categorizeWithAI_spec
    (client : Option String → Option String → Option String → String)
    (processed : List (Nat × String)) (rows : List Row)
    (_hrange : ∀ p ∈ processed, p.1 < rows.length)
    (hnodup : (processed.map Prod.fst).Nodup) :
    (categorizeWithAI client processed rows).length = rows.length ∧
    (∀ k (hk : k < rows.length),
      (categorizeWithAI client processed rows)[k]?
        = some ((processed.lookup k).getD
            (client (cleanString (rows.get ⟨k, hk⟩).name)
              (cleanString (rows.get ⟨k, hk⟩).employer)
              (cleanString (rows.get ⟨k, hk⟩).occupation)))) := by
  have hcat : categorizeWithAI client processed rows
      = setAll (((stage1Contributors processed rows).map Prod.fst).zip
            ((stage1Contributors processed rows).map (fun p =>
              client (cleanString p.2.name) (cleanString p.2.employer)
                (cleanString p.2.occupation))))
          (setAll processed (List.replicate rows.length "")) := rfl
  have hzip : ((stage1Contributors processed rows).map Prod.fst).zip
        ((stage1Contributors processed rows).map (fun p =>
          client (cleanString p.2.name) (cleanString p.2.employer)
            (cleanString p.2.occupation)))
      = (stage1Contributors processed rows).map (fun p =>
          (p.1, client (cleanString p.2.name) (cleanString p.2.employer)
            (cleanString p.2.occupation))) :=
    List.zip_map' Prod.fst _ (stage1Contributors processed rows)
  have hmapfst : ((stage1Contributors processed rows).map (fun p =>
        (p.1, client (cleanString p.2.name) (cleanString p.2.employer)
          (cleanString p.2.occupation)))).map Prod.fst
      = (stage1Contributors processed rows).map Prod.fst := by
    rw [List.map_map]
    rfl
  constructor
  · rw [hcat, setAll_length, setAll_length, List.length_replicate]
  · intro k hk
    rw [hcat, hzip]
    cases hlk : processed.lookup k with
    | some lab =>
      have hmemp : (k, lab) ∈ processed := by
        obtain ⟨l₁, l₂, heq, _⟩ := List.lookup_eq_some_iff.mp hlk
        rw [heq]
        exact List.mem_append_right l₁ (List.mem_cons_self _ _)
      have hknot : k ∉ ((stage1Contributors processed rows).map (fun p =>
          (p.1, client (cleanString p.2.name) (cleanString p.2.employer)
            (cleanString p.2.occupation)))).map Prod.fst := by
        rw [hmapfst, stage1Contributors_map_fst]
        intro hmemf
        have := (List.mem_filter.mp hmemf).2
        rw [hlk] at this
        exact Bool.false_ne_true this
      rw [setAll_getElem?_not_mem _ _ hknot,
        setAll_getElem?_mem processed hnodup k lab hmemp _
          (by rw [List.length_replicate]; exact hk)]
      rfl
    | none =>
      have hmemc : (k, rows.get ⟨k, hk⟩) ∈ stage1Contributors processed rows := by
        unfold stage1Contributors
        apply List.mem_filter.mpr
        constructor
        · apply List.mk_mem_enum_iff_getElem?.mpr
          rw [List.getElem?_eq_getElem hk]
          rfl
        · rw [hlk]
          rfl
      have hpair : (k, client (cleanString (rows.get ⟨k, hk⟩).name)
            (cleanString (rows.get ⟨k, hk⟩).employer)
            (cleanString (rows.get ⟨k, hk⟩).occupation))
          ∈ (stage1Contributors processed rows).map (fun p =>
            (p.1, client (cleanString p.2.name) (cleanString p.2.employer)
              (cleanString p.2.occupation))) :=
        List.mem_map_of_mem _ hmemc
      have hknd : (((stage1Contributors processed rows).map (fun p =>
          (p.1, client (cleanString p.2.name) (cleanString p.2.employer)
            (cleanString p.2.occupation)))).map Prod.fst).Nodup := by
        rw [hmapfst, stage1Contributors_map_fst]
        exact (List.nodup_range _).filter _
      rw [setAll_getElem?_mem _ hknd k _ hpair _
        (by rw [setAll_length, List.length_replicate]; exact hk)]
      rfl

/-- C5: when stage 1 starts with a checkpoint loaded (and validated)
against the current row count, exactly the checkpointed indices are
skipped with their stored labels reused in the output label column, and
every other record — wherever its index lies relative to the checkpointed
ones — is classified via the Classification Client on its cleaned fields;
the classifier is invoked on exactly the non-checkpointed indices in
increasing input order. -/
theorem c5_stage1_resume
    (client : Option String → Option String → Option String → String)
    (store : Option Stored) (rows : List Row)
    (hrange : ∀ p ∈ loadProgress store rows.length, p.1 < rows.length)
    (hnodup : ((loadProgress store rows.length).map Prod.fst).Nodup) :
    (categorizeWithAI client (loadProgress store rows.length) rows).length
        = rows.length ∧
    (∀ k (hk : k < rows.length),
      (categorizeWithAI client (loadProgress store rows.length) rows)[k]?
        = some (((loadProgress store rows.length).lookup k).getD
            (client (cleanString (rows.get ⟨k, hk⟩).name)
              (cleanString (rows.get ⟨k, hk⟩).employer)
              (cleanString (rows.get ⟨k, hk⟩).occupation)))) ∧
    (stage1Contributors (loadProgress store rows.length) rows).map Prod.fst
        = (List.range rows.length).filter
            (fun k => ((loadProgress store rows.length).lookup k).isNone) := by
  obtain ⟨h1, h2⟩ :=
    categorizeWithAI_spec client (loadProgress store rows.length) rows
      hrange hnodup
  exact ⟨h1, h2, stage1Contributors_map_fst _ rows⟩

/-- Witness for `c5_stage1_resume`: two rows, a checkpoint of size 2
holding index 1, a constant classifier; row 0 is classified, row 1 reuses
the stored label. -/
theorem c5_stage1_resume_witness :
    (categorizeWithAI (fun _ _ _ => "Lawyers")
        (loadProgress (some (.envelope [(1, "Oil Industry")] 2 (some 3))) 2)
        [⟨some "A", none, none⟩, ⟨some "B", none, none⟩]).length = 2 ∧
    (∀ k (hk : k < 2),
      (categorizeWithAI (fun _ _ _ => "Lawyers")
        (loadProgress (some (.envelope [(1, "Oil Industry")] 2 (some 3))) 2)
        [⟨some "A", none, none⟩, ⟨some "B", none, none⟩])[k]?
        = some (((loadProgress (some (.envelope [(1, "Oil Industry")] 2
              (some 3))) 2).lookup k).getD
            ((fun _ _ _ => "Lawyers")
              (cleanString (([⟨some "A", none, none⟩,
                  ⟨some "B", none, none⟩] : List Row).get ⟨k, hk⟩).name)
              (cleanString (([⟨some "A", none, none⟩,
                  ⟨some "B", none, none⟩] : List Row).get ⟨k, hk⟩).employer)
              (cleanString (([⟨some "A", none, none⟩,
                  ⟨some "B", none, none⟩] : List Row).get ⟨k, hk⟩).occupation)))) ∧
    (stage1Contributors
        (loadProgress (some (.envelope [(1, "Oil Industry")] 2 (some 3))) 2)
        [⟨some "A", none, none⟩, ⟨some "B", none, none⟩]).map Prod.fst
        = (List.range 2).filter
            (fun k => ((loadProgress (some (.envelope [(1, "Oil Industry")] 2
              (some 3))) 2).lookup k).isNone) :=
  c5_stage1_resume (fun _ _ _ => "Lawyers")
    (some (.envelope [(1, "Oil Industry")] 2 (some 3)))
    [⟨some "A", none, none⟩, ⟨some "B", none, none⟩]
    (by decide) (by decide)

end CFCat
